import Mathlib

/-!
Verification of the mappings-editor tree-flattening library
(`normalize` / `deNormalize` / path maintenance and their helpers).

The TypeScript source is embedded shallowly:

* JS objects holding mapping fields become ordered association lists
  (`Fields`); a field value (`Omit<Field, 'name'>`) becomes the inductive
  `Field` with its two possible child containers (`properties`, `fields`)
  and the remaining scalar entries in `extra`.
* The global uuid generator (`getUniqueId`) is replaced by a deterministic
  counter threaded through `NormState`; identifiers are `Nat`.  All claims
  proved here are about structure (paths, depths, links), which is
  independent of the identifier text.
* JS mutation of the accumulator objects becomes explicit state passing.
* Recursions that walk the flat table (which in JS would diverge on a
  malformed cyclic table) take an explicit fuel argument and return
  `Option`, with `none` modelling the crash/divergence; callers pass a
  fuel that provably suffices for well-formed tables.
-/

set_option autoImplicit false

namespace MappingsLib

/-- A field value, i.e. the TS `Omit<Field, 'name'>`: declared type, the two
possible child containers (`properties` used by object/nested, `fields` used
by text/keyword) and all remaining scalar properties. -/
inductive Field : Type where
  | mk (type : String) (props flds : Option (List (String × Field)))
       (extra : List (String × String)) : Field

/-- The TS `Fields`: a mapping from field name to field value, with the
declaration order of the JS object kept. -/
abbrev Fields := List (String × Field)

def Field.type : Field → String
  | .mk t _ _ _ => t

def Field.props : Field → Option Fields
  | .mk _ p _ _ => p

def Field.flds : Field → Option Fields
  | .mk _ _ f _ => f

def Field.extra : Field → List (String × String)
  | .mk _ _ _ e => e

/-- The TS `ChildFieldName = 'fields' | 'properties'`. -/
inductive ChildFieldName : Type where
  | fields | properties
  deriving DecidableEq

/-- `getChildFieldsName` from the source. -/
def getChildFieldsName (dataType : String) : Option ChildFieldName :=
  if dataType = "text" ∨ dataType = "keyword" then some .fields
  else if dataType = "object" ∨ dataType = "nested" then some .properties
  else none

/-- The TS `Field` (a field value together with its `name`). -/
structure NField where
  name : String
  val : Field

structure FieldMeta where
  childFieldsName : Option ChildFieldName
  canHaveChildFields : Bool
  hasChildFields : Bool
  canHaveMultiFields : Bool
  hasMultiFields : Bool
  isExpanded : Bool
  childFields : Option (List Nat) := none

/-- The JS access `field[childFieldsName!]`: the container named by the
(optional) child-container name. -/
def containerAt (f : Field) : Option ChildFieldName → Option Fields
  | some .properties => f.props
  | some .fields => f.flds
  | none => none

/-- `getFieldMeta` from the source.  `hasChildFields` / `hasMultiFields`
mirror `canHave… && Boolean(field[childFieldsName!]) &&
Object.keys(field[childFieldsName!]!).length > 0` (an empty JS object is
truthy, so emptiness is decided by the key count). -/
def getFieldMeta (field : NField) (isMultiField : Bool) : FieldMeta :=
  let childFieldsName := getChildFieldsName field.val.type
  let canHaveChildFields : Bool :=
    if isMultiField then false else childFieldsName = some .properties
  let hasChildFields : Bool :=
    if isMultiField then false else
      canHaveChildFields && (containerAt field.val childFieldsName).isSome &&
        ((containerAt field.val childFieldsName).getD []).length > 0
  let canHaveMultiFields : Bool :=
    if isMultiField then false else childFieldsName = some .fields
  let hasMultiFields : Bool :=
    if isMultiField then false else
      canHaveMultiFields && (containerAt field.val childFieldsName).isSome &&
        ((containerAt field.val childFieldsName).getD []).length > 0
  { childFieldsName, canHaveChildFields, hasChildFields, canHaveMultiFields,
    hasMultiFields, isExpanded := false }

/-- A row of the flat table.  `source` is the field's own data with the two
container keys stripped (`const { properties, fields, ...rest } = field`):
its `value.props` and `value.flds` are always `none` for rows built by
`normalize`. -/
structure SourceField where
  name : String
  value : Field

structure NormalizedField where
  id : Nat
  parentId : Option Nat
  nestedDepth : Nat
  isMultiField : Bool
  path : String
  source : SourceField
  childFieldsName : Option ChildFieldName
  canHaveChildFields : Bool
  hasChildFields : Bool
  canHaveMultiFields : Bool
  hasMultiFields : Bool
  childFields : Option (List Nat)
  isExpanded : Bool

/-- The `byId` object: identifier-keyed rows.  JS property writes become
list cons; `lookupM` returns the most recent binding of a key. -/
abbrev Table := List (Nat × NormalizedField)

def lookupM (t : Table) (k : Nat) : Option NormalizedField :=
  match t with
  | [] => none
  | (k2, v) :: rest => if k = k2 then some v else lookupM rest k

/-- State threaded through `normalizeFields`: the uuid stream is modelled by
the `nextId` counter, `byId` is the accumulator object `to`, and
`maxNestedDepth` is the closed-over mutable of `normalize`. -/
structure NormState where
  nextId : Nat
  byId : Table
  maxNestedDepth : Nat

/-- JS `Array.prototype.join('.')`. -/
def joinDot : List String → String
  | [] => ""
  | [s] => s
  | s :: rest => s ++ "." ++ joinDot rest

/-- The container `normalizeFields` recurses into: `field[childFieldsName!]!`.
Only reached when a `has…` flag is true, in which case the matching
container is present. -/
def recContainer (fv : Field) : Option ChildFieldName → Fields
  | some .properties => fv.props.getD []
  | _ => fv.flds.getD []

/-- The inner `normalizeFields` of `normalize`.  Returns the updated state
and the list of identifiers pushed onto `idsArray` at this level, in
declaration order.  The row of a field is inserted after the rows of its
children, exactly as in the source's `reduce`. -/
def normalizeFields (props : Fields) (paths : List String) (nestedDepth : Nat)
    (isMultiField : Bool) (parentId : Option Nat) (st : NormState) :
    NormState × List Nat :=
  match props with
  | [] => (st, [])
  | (propName, fv) :: rest =>
    let id := st.nextId
    let st1 : NormState := { st with nextId := st.nextId + 1 }
    let meta0 := getFieldMeta ⟨propName, fv⟩ isMultiField
    let (st2, kidsOpt) :=
      if meta0.hasChildFields || meta0.hasMultiFields then
        let nextDepth :=
          if meta0.canHaveChildFields || meta0.canHaveMultiFields
          then nestedDepth + 1 else nestedDepth
        let container : Fields := recContainer fv meta0.childFieldsName
        let stM : NormState :=
          { st1 with maxNestedDepth := max st1.maxNestedDepth nextDepth }
        let (stR, kidIds) := normalizeFields container (paths ++ [propName])
          nextDepth meta0.canHaveMultiFields (some id) stM
        (stR, some kidIds)
      else (st1, none)
    let meta := { meta0 with childFields := kidsOpt }
    let row : NormalizedField :=
      { id, parentId, nestedDepth, isMultiField,
        path := if paths.isEmpty then propName else joinDot paths ++ "." ++ propName,
        source := ⟨propName, Field.mk fv.type none none fv.extra⟩,
        childFieldsName := meta.childFieldsName,
        canHaveChildFields := meta.canHaveChildFields,
        hasChildFields := meta.hasChildFields,
        canHaveMultiFields := meta.canHaveMultiFields,
        hasMultiFields := meta.hasMultiFields,
        childFields := meta.childFields,
        isExpanded := meta.isExpanded }
    let st3 : NormState := { st2 with byId := (id, row) :: st2.byId }
    let (st4, restIds) := normalizeFields rest paths nestedDepth isMultiField parentId st3
    (st4, id :: restIds)
termination_by sizeOf props
decreasing_by
  · have h : ∀ c, sizeOf (recContainer fv c) < sizeOf fv := by
      intro c
      rcases fv with ⟨t, p, f, e⟩
      rcases c with _ | cn
      · cases f <;> (simp [recContainer, Field.flds]; omega)
      · cases cn
        · cases f <;> (simp [recContainer, Field.flds]; omega)
        · cases p <;> (simp [recContainer, Field.props]; omega)
    have h2 := h (getFieldMeta ⟨propName, fv⟩ isMultiField).childFieldsName
    simp at h2 ⊢
    omega
  · simp

structure NormalizedFields where
  byId : Table
  rootLevelFields : List Nat
  maxNestedDepth : Nat

/-- `normalize` from the source. -/
def normalize (fieldsToNormalize : Fields) : NormalizedFields :=
  let (st, rootLevelFields) :=
    normalizeFields fieldsToNormalize [] 0 false none ⟨0, [], 0⟩
  { byId := st.byId, rootLevelFields, maxNestedDepth := st.maxNestedDepth }

/-- JS `to[name] = field`: replace the binding of `name` in place if it
exists, otherwise append it. -/
def setKey (acc : Fields) (name : String) (v : Field) : Fields :=
  match acc with
  | [] => [(name, v)]
  | (n, w) :: rest => if n = name then (name, v) :: rest else (n, w) :: setKey rest name v

/-- JS `field[childFieldsName!] = {…}`: store a container under the given
child-container name. -/
def setContainer (f : Field) (c : ChildFieldName) (sub : Fields) : Field :=
  match c, f with
  | .properties, .mk t _ fl e => .mk t (some sub) fl e
  | .fields, .mk t p _ e => .mk t p (some sub) e

/-- The inner `deNormalizePaths` of `deNormalize`.  `none` models the JS
crash on a dangling identifier (or on `childFields` present with no
`childFieldsName`, where the TS non-null assertion is violated), and fuel
exhaustion models divergence on a cyclic table. -/
def deNormalizePaths (byId : Table) (fuel : Nat) (ids : List Nat) (acc : Fields) :
    Option Fields :=
  match ids with
  | [] => some acc
  | id :: rest =>
    match lookupM byId id with
    | none => none
    | some row =>
      match row.childFields with
      | none => deNormalizePaths byId fuel rest (setKey acc row.source.name row.source.value)
      | some kids =>
        match fuel with
        | 0 => none
        | fuel' + 1 =>
          match row.childFieldsName with
          | none => none
          | some cfn =>
            match deNormalizePaths byId fuel' kids [] with
            | none => none
            | some sub =>
              deNormalizePaths byId (fuel' + 1) rest
                (setKey acc row.source.name (setContainer row.source.value cfn sub))
termination_by (fuel, ids.length)

/-- `deNormalize` from the source, with a fuel bound large enough for every
table that `normalize` can produce. -/
def deNormalize (normalized : NormalizedFields) : Option Fields :=
  deNormalizePaths normalized.byId (normalized.byId.length + 1)
    normalized.rootLevelFields []

/-- JS `String.prototype.split('.')` at the character-list level.  Splitting
never yields the empty list: splitting `""` gives `[""]`. -/
def splitDotL : List Char → List (List Char)
  | [] => [[]]
  | c :: cs =>
    if c = '.' then [] :: splitDotL cs
    else
      match splitDotL cs with
      | [] => [[c]]
      | h :: t => (c :: h) :: t

def splitDot (s : String) : List String :=
  (splitDotL s.data).map (fun l => String.mk l)

mutual

/-- The inner `updateFieldPath` of `updateFieldsPathAfterFieldNameChange`.
Reads names and children from the original `byId`, writes re-derived paths
into the accumulator copy.  `none` models the JS crash when `childFields`
is missing despite a `has…` flag, or when a child identifier is dangling;
fuel exhaustion models divergence on a cyclic table. -/
def updateFieldPath (byId : Table) (fuel : Nat) (f : NormalizedField)
    (ps : List String) (acc : Table) : Option Table :=
  match fuel with
  | 0 => none
  | fuel1 + 1 =>
    let name := f.source.name
    let path := if ps.length = 0 then name else joinDot ps ++ "." ++ name
    let acc1 : Table := (f.id, { f with path := path }) :: acc
    if f.hasChildFields || f.hasMultiFields then
      match f.childFields with
      | none => none
      | some kids => updateFieldPathKids byId fuel1 kids (ps ++ [name]) acc1
    else some acc1
termination_by (fuel, 0)

/-- The `forEach` loop over `childFields` inside `updateFieldPath`. -/
def updateFieldPathKids (byId : Table) (fuel : Nat) (kids : List Nat)
    (ps : List String) (acc : Table) : Option Table :=
  match kids with
  | [] => some acc
  | cid :: rest =>
    match lookupM byId cid with
    | none => none
    | some crow =>
      match updateFieldPath byId fuel crow ps acc with
      | none => none
      | some acc2 => updateFieldPathKids byId fuel rest ps acc2
termination_by (fuel, kids.length + 1)

end

/-- `updateFieldsPathAfterFieldNameChange` from the source.  The spread copy
`{ ...byId }` is value semantics here; writes go to the returned table
only.  `none` models the JS crash on a dangling `parentId`. -/
def updateFieldsPathAfterFieldNameChange (field : NormalizedField)
    (byId : Table) : Option (String × Table) :=
  let pathsOpt : Option (List String) :=
    match field.parentId with
    | none => some []
    | some p => (lookupM byId p).map (fun prow => splitDot prow.path)
  match pathsOpt with
  | none => none
  | some paths =>
    match updateFieldPath byId (byId.length + 1) field paths byId with
    | none => none
    | some updatedById =>
      (lookupM updatedById field.id).map (fun frow => (frow.path, updatedById))

/-- `shouldDeleteChildFieldsAfterTypeChange` from the source. -/
def shouldDeleteChildFieldsAfterTypeChange (oldType newType : String) : Bool :=
  if oldType = "text" ∧ newType ≠ "keyword" then true
  else if oldType = "keyword" ∧ newType ≠ "text" then true
  else if oldType = "object" ∧ newType ≠ "nested" then true
  else if oldType = "nested" ∧ newType ≠ "object" then true
  else false

/-- An opaque input-widget configuration object; `[]` stands for the empty
config `{}`. -/
abbrev FieldConfig := List (String × String)

structure PropEntry where
  fieldConfig : Option FieldConfig

/-- One entry of the external `PARAMETERS_DEFINITION` table: an optional
`props` sub-table and an optional top-level `fieldConfig`. -/
structure ParamDefinition where
  props : Option (List (String × PropEntry))
  fieldConfig : Option FieldConfig

def lookupP {α : Type} (l : List (String × α)) (k : String) : Option α :=
  match l with
  | [] => none
  | (k2, v) :: rest => if k = k2 then some v else lookupP rest k

/-- `getFieldConfig` from the source.  The static `PARAMETERS_DEFINITION`
collaborator is passed explicitly as a total map (its TS type guarantees an
entry for every `ParameterName`); `Except.error` models the thrown
`Error`. -/
def getFieldConfig (defs : String → ParamDefinition) (param : String)
    (prop : Option String) : Except String FieldConfig :=
  match prop with
  | some p =>
    match (defs param).props with
    | none =>
      .error ("No field config found for prop \"" ++ p ++ "\" on param \"" ++ param ++ "\" ")
    | some propsTable =>
      match lookupP propsTable p with
      | none =>
        .error ("No field config found for prop \"" ++ p ++ "\" on param \"" ++ param ++ "\" ")
      | some entry => .ok (entry.fieldConfig.getD [])
  | none => .ok ((defs param).fieldConfig.getD [])

/-- A state section carrying a tri-state validity flag (`isValid` may be
`true`, `false` or indeterminate). -/
structure SectionValidity where
  isValid : Option Bool

/-- The slice of the reducer `State` that `isStateValid` reads: the three
sections named in `stateWithValidity`; a section that is absent (or present
with value `undefined`) is `none`.  Other sections of the state are removed
by the `filter` in the source and cannot influence the result. -/
structure State where
  configuration : Option SectionValidity
  fieldsJsonEditor : Option SectionValidity
  fieldForm : Option SectionValidity

/-- The filtered entry list the source's `reduce` runs over. -/
def stateWithValidity (state : State) : List (Option SectionValidity) :=
  [state.configuration, state.fieldsJsonEditor, state.fieldForm]

/-- `isStateValid` from the source: fold with identity `true`; a present
section with indeterminate `isValid` (or an already indeterminate
accumulator) makes the result indeterminate, otherwise sections are
combined with `&&`. -/
def isStateValid (state : State) : Option Bool :=
  (stateWithValidity state).foldl
    (fun isValid value =>
      match value with
      | none => isValid
      | some v =>
        match isValid, v.isValid with
        | none, _ => none
        | some _, none => none
        | some b, some c => some (b && c))
    (some true)

/-! Specification-side definitions: the row built by one `normalizeFields`
step, well-formedness of an input tree, ancestor chains of a table, and the
invariants proved about `normalizeFields`. -/

/-- The row that one step of `normalizeFields` stores, spelled out as a
function of the step's inputs (used to state the structural lemmas). -/
def mkRow (id : Nat) (parentId : Option Nat) (nestedDepth : Nat) (isMultiField : Bool)
    (paths : List String) (propName : String) (fv : Field) (kidsOpt : Option (List Nat)) :
    NormalizedField :=
  let meta0 := getFieldMeta ⟨propName, fv⟩ isMultiField
  { id, parentId, nestedDepth, isMultiField,
    path := if paths.isEmpty then propName else joinDot paths ++ "." ++ propName,
    source := ⟨propName, Field.mk fv.type none none fv.extra⟩,
    childFieldsName := meta0.childFieldsName,
    canHaveChildFields := meta0.canHaveChildFields,
    hasChildFields := meta0.hasChildFields,
    canHaveMultiFields := meta0.canHaveMultiFields,
    hasMultiFields := meta0.hasMultiFields,
    childFields := kidsOpt,
    isExpanded := false }

/-- Every key of the accumulated table is below the identifier counter. -/
def KeysBounded (st : NormState) : Prop :=
  ∀ k row, lookupM st.byId k = some row → k < st.nextId

/-- Per-row facts delivered by `normalizeFields` for the rows it creates:
identifier, stripped source, child identifier ranges, and the parent link
(either a top-level row of this call, or a child of another new row that
was created earlier and sits exactly one nesting level higher). -/
structure RowOut (lo hi : Nat) (depth : Nat) (mf : Bool) (pid : Option Nat)
    (ids : List Nat) (t2 : Table) (k : Nat) (row : NormalizedField) : Prop where
  idEq : row.id = k
  srcProps : row.source.value.props = none
  srcFlds : row.source.value.flds = none
  kidsRange : ∀ l, row.childFields = some l → ∀ c ∈ l, lo ≤ c ∧ c < hi
  link : (k ∈ ids ∧ row.parentId = pid ∧ row.nestedDepth = depth ∧ row.isMultiField = mf) ∨
    (∃ p prow, row.parentId = some p ∧ lo ≤ p ∧ p < k ∧
      lookupM t2 p = some prow ∧ row.nestedDepth = prow.nestedDepth + 1)

/-- What one call to `normalizeFields` guarantees: the counter only grows,
one row per consumed identifier, old keys untouched, and `RowOut` for every
new row. -/
structure MasterOut (st : NormState) (depth : Nat) (mf : Bool) (pid : Option Nat)
    (st2 : NormState) (ids : List Nat) : Prop where
  mono : st.nextId ≤ st2.nextId
  len : st2.byId.length + st.nextId = st.byId.length + st2.nextId
  pres : ∀ k, k < st.nextId → lookupM st2.byId k = lookupM st.byId k
  bounded : KeysBounded st2
  idsRange : ∀ i ∈ ids, st.nextId ≤ i ∧ i < st2.nextId
  total : ∀ k, st.nextId ≤ k → k < st2.nextId → ∃ row, lookupM st2.byId k = some row
  rows : ∀ k row, st.nextId ≤ k → lookupM st2.byId k = some row →
    RowOut st.nextId st2.nextId depth mf pid ids st2.byId k row

/-- Well-formedness of an input mapping tree (the domain of the round-trip
law).  `inMulti` is true inside a `fields` (multi-field) container.  Sibling
names are pairwise distinct; a child container may only sit under the name
designated for the field's type and is never stored empty; a multi-field
member has no containers at all (a multi-field can have no further children
of either kind — the classifier forces both capability flags false). -/
inductive WellFormed : Bool → Fields → Prop where
  | nil (inMulti : Bool) : WellFormed inMulti []
  | consPlain (inMulti : Bool) (n ty : String) (ex : List (String × String)) (rest : Fields) :
      n ∉ rest.map Prod.fst →
      WellFormed inMulti rest →
      WellFormed inMulti ((n, Field.mk ty none none ex) :: rest)
  | consMultiCont (n ty : String) (ex : List (String × String)) (rest cs : Fields) :
      getChildFieldsName ty = some .fields →
      cs ≠ [] →
      n ∉ rest.map Prod.fst →
      WellFormed true cs →
      WellFormed false rest →
      WellFormed false ((n, Field.mk ty none (some cs) ex) :: rest)
  | consChildCont (n ty : String) (ex : List (String × String)) (rest cs : Fields) :
      getChildFieldsName ty = some .properties →
      cs ≠ [] →
      n ∉ rest.map Prod.fst →
      WellFormed false cs →
      WellFormed false rest →
      WellFormed false ((n, Field.mk ty (some cs) none ex) :: rest)

/-- The ancestor chain of a node: follows `parentId` upwards and lists
`(identifier, live name)` pairs from the root down to the node itself.
`none` on a dangling link or when the fuel runs out (a cycle). -/
def ancChain (byId : Table) : Nat → Option Nat → Option (List (Nat × String))
  | _, none => some []
  | 0, some _ => none
  | fuel + 1, some k =>
    match lookupM byId k with
    | none => none
    | some row => (ancChain byId fuel row.parentId).map (fun l => l ++ [(k, row.source.name)])

/-- Example input: a `text` field with one multi-field member. -/
def exMulti : Fields :=
  [("title", Field.mk "text" none (some [("raw", Field.mk "keyword" none none [])]) [])]

def exMultiRow0 : NormalizedField :=
  mkRow 0 none 0 false [] "title"
    (Field.mk "text" none (some [("raw", Field.mk "keyword" none none [])]) []) (some [1])

def exMultiRow1 : NormalizedField :=
  mkRow 1 (some 0) 1 true ["title"] "raw" (Field.mk "keyword" none none []) none

/-- Example input: an `object` field carrying a stray `fields` key next to
its regular `properties` container. -/
def exStray : Fields :=
  [("obj", Field.mk "object" (some [("name", Field.mk "text" none none [])])
    (some [("raw", Field.mk "keyword" none none [])]) [])]

def exStrayRow0 : NormalizedField :=
  mkRow 0 none 0 false [] "obj"
    (Field.mk "object" (some [("name", Field.mk "text" none none [])])
      (some [("raw", Field.mk "keyword" none none [])]) []) (some [1])

/-- Example parameter-definition table for `getFieldConfig`. -/
def exDefs : String → ParamDefinition := fun _ => ⟨none, none⟩

/-- Statement of one round-trip step: denormalizing the identifiers
produced by `normalizeFields props …` out of any table that agrees with its
output on the freshly created keys rebuilds exactly `props` (appended to
the accumulator), for every sufficient fuel and every accumulator whose
keys avoid the level's names. -/
def DenormGood (mf : Bool) (props : Fields) : Prop :=
  ∀ (paths : List String) (depth : Nat) (pid : Option Nat) (st : NormState),
    KeysBounded st →
    ∀ (m : Table) (fuel : Nat) (acc : Fields),
      (∀ k, st.nextId ≤ k → k < (normalizeFields props paths depth mf pid st).1.nextId →
        lookupM m k = lookupM (normalizeFields props paths depth mf pid st).1.byId k) →
      (normalizeFields props paths depth mf pid st).1.nextId - st.nextId ≤ fuel →
      (∀ e ∈ acc, e.1 ∉ props.map Prod.fst) →
      deNormalizePaths m fuel (normalizeFields props paths depth mf pid st).2 acc =
        some (acc ++ props)

/-- Example input for the round-trip law: the docstring example of
`normalize` (an object with one nested text field). -/
def exWf : Fields :=
  [("myObject", Field.mk "object" (some [("name", Field.mk "text" none none [])]) none [])]

/-- Executable per-row coherence of a flat table: the row's `id` matches its
key, the `has…` flags agree with the presence of `childFields`, every child
points back to this row via `parentId`, and the row's own parent exists and
lists it among its `childFields`. -/
def rowOk (byId : Table) (pair : Nat × NormalizedField) : Bool :=
  (pair.2.id == pair.1) &&
  ((pair.2.hasChildFields || pair.2.hasMultiFields) == pair.2.childFields.isSome) &&
  (match pair.2.childFields with
   | none => true
   | some l => l.all fun c =>
       match lookupM byId c with
       | some crow => crow.parentId == some pair.1
       | none => false) &&
  (match pair.2.parentId with
   | none => true
   | some p =>
     match lookupM byId p with
     | some prow =>
       match prow.childFields with
       | some l => l.contains pair.1
       | none => false
     | none => false)

/-- Executable coherence of the whole table. -/
def tableOk (byId : Table) : Bool :=
  byId.all fun pair => rowOk byId pair

/-- `rk` witnesses acyclicity of the parent/child links: it strictly drops
from a row to each of its children and is bounded by the table size. -/
def rankOk (byId : Table) (rk : Nat → Nat) : Bool :=
  byId.all fun pair =>
    decide (rk pair.1 < byId.length) &&
    (match pair.2.childFields with
     | none => true
     | some l => l.all fun c => decide (rk c < rk pair.1))

/-- The ancestor chain of a node as a relation: `IsChain byId (some k) l`
says `l` lists `(identifier, live name)` pairs along the `parentId` chain
from the root down to `k` itself. -/
inductive IsChain (byId : Table) : Option Nat → List (Nat × String) → Prop where
  | nil : IsChain byId none []
  | cons (k : Nat) (row : NormalizedField) (l : List (Nat × String)) :
      lookupM byId k = some row →
      IsChain byId row.parentId l →
      IsChain byId (some k) (l ++ [(k, row.source.name)])

/-- Closure of the `childFields` links: the nodes the path maintainer
traverses below `a` (including `a` itself). -/
inductive InSubtree (byId : Table) (a : Nat) : Nat → Prop where
  | self : InSubtree byId a a
  | step (p c : Nat) (prow : NormalizedField) (l : List Nat) :
      InSubtree byId a p → lookupM byId p = some prow →
      prow.childFields = some l → c ∈ l → InSubtree byId a c

/-- `d` is `a` itself or one of its transitive descendants, measured along
`parentId` chains (as the claims are phrased). -/
def Desc (byId : Table) (a d : Nat) : Prop :=
  d = a ∨ ∃ ch, IsChain byId (some d) ch ∧ a ∈ ch.map Prod.fst

/-- In table `t`, node `k` carries exactly its `byId` row with the path
re-derived as the dot-join of the live names of its ancestor chain. -/
def CorrectRow (byId t : Table) (k : Nat) : Prop :=
  ∃ krow ch, lookupM byId k = some krow ∧ IsChain byId (some k) ch ∧
    lookupM t k = some { krow with path := joinDot (ch.map Prod.snd) }

/-- Example rename scenario: `normalize`-shaped table for
`myObject.name` whose root field has just been renamed to `obj` (so its
`source.name` is `obj` while the stored paths are stale). -/
def exRenRow0 : NormalizedField :=
  { id := 0, parentId := none, nestedDepth := 0, isMultiField := false,
    path := "myObject",
    source := ⟨"obj", Field.mk "object" none none []⟩,
    childFieldsName := some .properties, canHaveChildFields := true,
    hasChildFields := true, canHaveMultiFields := false, hasMultiFields := false,
    childFields := some [1], isExpanded := false }

def exRenRow1 : NormalizedField :=
  { id := 1, parentId := some 0, nestedDepth := 1, isMultiField := false,
    path := "myObject.name",
    source := ⟨"name", Field.mk "text" none none []⟩,
    childFieldsName := some .fields, canHaveChildFields := false,
    hasChildFields := false, canHaveMultiFields := false, hasMultiFields := false,
    childFields := none, isExpanded := false }

def exRenTable : Table := [(0, exRenRow0), (1, exRenRow1)]

/-! Fuelled twins of the well-founded recursions, used only to evaluate
concrete examples by kernel reduction; each is proved equal to the original
whenever the fuel is at least the input's size. -/

def normalizeFieldsC : Nat → Fields → List String → Nat → Bool → Option Nat → NormState →
    NormState × List Nat
  | _, [], _, _, _, _, st => (st, [])
  | 0, _ :: _, _, _, _, _, st => (st, [])
  | fuel + 1, (propName, fv) :: rest, paths, nestedDepth, isMultiField, parentId, st =>
    let id := st.nextId
    let st1 : NormState := { st with nextId := st.nextId + 1 }
    let meta0 := getFieldMeta ⟨propName, fv⟩ isMultiField
    let (st2, kidsOpt) :=
      if meta0.hasChildFields || meta0.hasMultiFields then
        let nextDepth :=
          if meta0.canHaveChildFields || meta0.canHaveMultiFields
          then nestedDepth + 1 else nestedDepth
        let container : Fields := recContainer fv meta0.childFieldsName
        let stM : NormState :=
          { st1 with maxNestedDepth := max st1.maxNestedDepth nextDepth }
        let (stR, kidIds) := normalizeFieldsC fuel container (paths ++ [propName])
          nextDepth meta0.canHaveMultiFields (some id) stM
        (stR, some kidIds)
      else (st1, none)
    let row := mkRow id parentId nestedDepth isMultiField paths propName fv kidsOpt
    let st3 : NormState := { st2 with byId := (id, row) :: st2.byId }
    let (st4, restIds) := normalizeFieldsC fuel rest paths nestedDepth isMultiField parentId st3
    (st4, id :: restIds)

/-! Structural lemmas about `normalizeFields`. -/

theorem sizeOf_recContainer_lt (fv : Field) (c : Option ChildFieldName) :
    sizeOf (recContainer fv c) < sizeOf fv := by
  rcases fv with ⟨t, p, f, e⟩
  rcases c with _ | cn
  · cases f <;> (simp [recContainer, Field.flds]; omega)
  · cases cn
    · cases f <;> (simp [recContainer, Field.flds]; omega)
    · cases p <;> (simp [recContainer, Field.props]; omega)

theorem lookupM_cons (k id : Nat) (row : NormalizedField) (t : Table) :
    lookupM ((id, row) :: t) k = if k = id then some row else lookupM t k := rfl

theorem normalizeFields_nil (paths : List String) (depth : Nat) (mf : Bool)
    (pid : Option Nat) (st : NormState) :
    normalizeFields [] paths depth mf pid st = (st, []) := by
  rw [normalizeFields]

theorem normalizeFields_cons (n : String) (fv : Field) (rest : Fields)
    (paths : List String) (depth : Nat) (mf : Bool) (pid : Option Nat) (st : NormState) :
    normalizeFields ((n, fv) :: rest) paths depth mf pid st =
      (let meta0 := getFieldMeta ⟨n, fv⟩ mf
       let id := st.nextId
       let recRes : NormState × Option (List Nat) :=
         if meta0.hasChildFields || meta0.hasMultiFields then
           let nextDepth :=
             if meta0.canHaveChildFields || meta0.canHaveMultiFields
             then depth + 1 else depth
           let inner := normalizeFields (recContainer fv meta0.childFieldsName)
             (paths ++ [n]) nextDepth meta0.canHaveMultiFields (some id)
             ⟨st.nextId + 1, st.byId, max st.maxNestedDepth nextDepth⟩
           (inner.1, some inner.2)
         else (⟨st.nextId + 1, st.byId, st.maxNestedDepth⟩, none)
       let row := mkRow id pid depth mf paths n fv recRes.2
       let st3 : NormState := ⟨recRes.1.nextId, (id, row) :: recRes.1.byId, recRes.1.maxNestedDepth⟩
       let outer := normalizeFields rest paths depth mf pid st3
       (outer.1, id :: outer.2)) := by
  rw [normalizeFields]
  rfl



theorem hasChild_can (field : NField) (mf : Bool)
    (h : (getFieldMeta field mf).hasChildFields = true) :
    (getFieldMeta field mf).canHaveChildFields = true := by
  cases mf <;> simp [getFieldMeta] at h ⊢ <;> tauto

theorem hasMulti_can (field : NField) (mf : Bool)
    (h : (getFieldMeta field mf).hasMultiFields = true) :
    (getFieldMeta field mf).canHaveMultiFields = true := by
  cases mf <;> simp [getFieldMeta] at h ⊢ <;> tauto

theorem nextDepth_eq (field : NField) (mf : Bool) (depth : Nat)
    (h : ((getFieldMeta field mf).hasChildFields || (getFieldMeta field mf).hasMultiFields) = true) :
    (if (getFieldMeta field mf).canHaveChildFields || (getFieldMeta field mf).canHaveMultiFields
     then depth + 1 else depth) = depth + 1 := by
  rcases Bool.or_eq_true_iff.mp h with h1 | h2
  · simp [hasChild_can field mf h1]
  · simp [hasMulti_can field mf h2]

theorem sizeOf_fields_pos (props : Fields) : 0 < sizeOf props := by
  cases props <;> simp

theorem sizeOf_head_container_lt (n : String) (fv : Field) (rest : Fields)
    (c : Option ChildFieldName) :
    sizeOf (recContainer fv c) < sizeOf ((n, fv) :: rest) := by
  have h := sizeOf_recContainer_lt fv c
  simp; omega

theorem sizeOf_tail_lt (n : String) (fv : Field) (rest : Fields) :
    sizeOf rest < sizeOf ((n, fv) :: rest) := by
  simp

theorem normalizeFields_master_aux (N : Nat) :
    ∀ (props : Fields) (paths : List String) (depth : Nat) (mf : Bool)
      (pid : Option Nat) (st : NormState), sizeOf props ≤ N → KeysBounded st →
      MasterOut st depth mf pid (normalizeFields props paths depth mf pid st).1
        (normalizeFields props paths depth mf pid st).2 := by
  induction N with
  | zero =>
    intro props paths depth mf pid st hsize KB
    have := sizeOf_fields_pos props
    omega
  | succ N ih =>
    intro props paths depth mf pid st hsize KB
    match props with
    | [] =>
      rw [normalizeFields_nil]
      exact {
        mono := le_refl _
        len := rfl
        pres := fun k hk => rfl
        bounded := KB
        idsRange := fun i hi => absurd hi (List.not_mem_nil i)
        total := fun k h1 h2 => absurd (lt_of_le_of_lt h1 h2) (lt_irrefl _)
        rows := fun k row h1 h2 => absurd (KB k row h2) (not_lt.mpr h1) }
    | (n, fv) :: rest =>
      have hsize1 : sizeOf (recContainer fv (getFieldMeta ⟨n, fv⟩ mf).childFieldsName) ≤ N := by
        have := sizeOf_head_container_lt n fv rest (getFieldMeta ⟨n, fv⟩ mf).childFieldsName
        omega
      have hsize2 : sizeOf rest ≤ N := by
        have := sizeOf_tail_lt n fv rest
        omega
      by_cases hrec :
        ((getFieldMeta ⟨n, fv⟩ mf).hasChildFields || (getFieldMeta ⟨n, fv⟩ mf).hasMultiFields) = true
      · -- recursing case: depth always increments
        have hnd := nextDepth_eq ⟨n, fv⟩ mf depth hrec
        rw [normalizeFields_cons]
        simp only [hrec, hnd, if_true]
        rcases hI : normalizeFields (recContainer fv (getFieldMeta ⟨n, fv⟩ mf).childFieldsName)
            (paths ++ [n]) (depth + 1) (getFieldMeta ⟨n, fv⟩ mf).canHaveMultiFields
            (some st.nextId) ⟨st.nextId + 1, st.byId, max st.maxNestedDepth (depth + 1)⟩
          with ⟨stR, kidIds⟩
        simp only [hI]
        have hKBM : KeysBounded ⟨st.nextId + 1, st.byId, max st.maxNestedDepth (depth + 1)⟩ := by
          intro k r h
          exact Nat.lt_succ_of_lt (KB k r h)
        have Min := ih (recContainer fv (getFieldMeta ⟨n, fv⟩ mf).childFieldsName)
          (paths ++ [n]) (depth + 1) (getFieldMeta ⟨n, fv⟩ mf).canHaveMultiFields
          (some st.nextId) ⟨st.nextId + 1, st.byId, max st.maxNestedDepth (depth + 1)⟩ hsize1 hKBM
        rw [hI] at Min
        have f1 : st.nextId + 1 ≤ stR.nextId := Min.mono
        have MiP := Min.pres
        have MiT := Min.total
        have MiR := Min.rows
        have MiI := Min.idsRange
        have MiL := Min.len
        have MiB : KeysBounded stR := Min.bounded
        dsimp only at MiP MiT MiR MiI MiL
        have hKB3 : KeysBounded ⟨stR.nextId,
            (st.nextId, mkRow st.nextId pid depth mf paths n fv (some kidIds)) :: stR.byId,
            stR.maxNestedDepth⟩ := by
          intro k r h
          dsimp only at h ⊢
          rw [lookupM_cons] at h
          split at h
          · omega
          · exact MiB k r h
        rcases hR : normalizeFields rest paths depth mf pid ⟨stR.nextId,
            (st.nextId, mkRow st.nextId pid depth mf paths n fv (some kidIds)) :: stR.byId,
            stR.maxNestedDepth⟩
          with ⟨st4, restIds⟩
        simp only [hR]
        have Mrest := ih rest paths depth mf pid ⟨stR.nextId,
          (st.nextId, mkRow st.nextId pid depth mf paths n fv (some kidIds)) :: stR.byId,
          stR.maxNestedDepth⟩ hsize2 hKB3
        rw [hR] at Mrest
        have f2 : stR.nextId ≤ st4.nextId := Mrest.mono
        have MrP := Mrest.pres
        have MrT := Mrest.total
        have MrR := Mrest.rows
        have MrI := Mrest.idsRange
        have MrL := Mrest.len
        dsimp only at MrP MrT MrR MrI MrL
        -- the head row is looked up unchanged in the final table
        have hrow4 : lookupM st4.byId st.nextId =
            some (mkRow st.nextId pid depth mf paths n fv (some kidIds)) := by
          have h3 := MrP st.nextId (by omega)
          rw [h3, lookupM_cons, if_pos rfl]
        -- inner-range keys survive into the final table
        have hmid : ∀ k, st.nextId + 1 ≤ k → k < stR.nextId →
            lookupM st4.byId k = lookupM stR.byId k := by
          intro k hk1 hk2
          have h3 := MrP k (by omega)
          rw [h3, lookupM_cons, if_neg (by omega)]
        refine ⟨?_, ?_, ?_, Mrest.bounded, ?_, ?_, ?_⟩
        · exact le_trans (by omega) f2
        · dsimp only at MiL MrL ⊢
          simp only [List.length_cons] at MrL
          omega
        · intro k hk
          have h3 := MrP k (by omega)
          rw [h3, lookupM_cons, if_neg (by omega)]
          exact MiP k (by omega)
        · intro i hi
          rcases List.mem_cons.mp hi with h | h
          · subst h
            constructor
            · exact le_refl _
            · omega
          · have h5 := MrI i h
            constructor
            · omega
            · exact h5.2
        · intro k h1 h2
          rcases Nat.lt_trichotomy k stR.nextId with h3 | h3 | h3
          · rcases Nat.eq_or_lt_of_le h1 with rfl | h4
            · exact ⟨_, hrow4⟩
            · have h5 := hmid k (by omega) h3
              rw [h5]
              exact MiT k (by omega) h3
          · exact MrT k h3.ge h2
          · exact MrT k (by omega) h2
        · intro k r h1 h2
          rcases Nat.lt_trichotomy k stR.nextId with h3 | h3 | h3
          · rcases Nat.eq_or_lt_of_le h1 with rfl | h4
            · -- k is the head row
              have hr : r = mkRow st.nextId pid depth mf paths n fv (some kidIds) := by
                rw [hrow4] at h2
                exact (Option.some.inj h2).symm
              subst hr
              refine ⟨rfl, rfl, rfl, ?_, ?_⟩
              · intro l hl c hc
                have hl2 : l = kidIds := by
                  have := hl
                  simp [mkRow] at this
                  exact this.symm
                subst hl2
                have h5 := MiI c hc
                omega
              · left
                exact ⟨List.mem_cons_self _ _, rfl, rfl, rfl⟩
            · -- k is an inner row
              have h5 := hmid k (by omega) h3
              rw [h5] at h2
              have RO := MiR k r (by omega) h2
              refine ⟨RO.idEq, RO.srcProps, RO.srcFlds, ?_, ?_⟩
              · intro l hl c hc
                have h6 := RO.kidsRange l hl c hc
                omega
              · rcases RO.link with ⟨hkin, hpar, hdep, hmf2⟩ | ⟨p, prow, hp1, hp2, hp3, hp4, hp5⟩
                · right
                  refine ⟨st.nextId, mkRow st.nextId pid depth mf paths n fv (some kidIds),
                    hpar, le_refl _, by omega, hrow4, ?_⟩
                  rw [hdep]
                  rfl
                · right
                  have hp4b : lookupM st4.byId p = some prow := by
                    rw [hmid p (by omega) (by omega)]
                    exact hp4
                  exact ⟨p, prow, hp1, by omega, hp3, hp4b, hp5⟩
          · -- k = stR.nextId: a rest row
            have RO := MrR k r (by omega) h2
            refine ⟨RO.idEq, RO.srcProps, RO.srcFlds, ?_, ?_⟩
            · intro l hl c hc
              have h6 := RO.kidsRange l hl c hc
              omega
            · rcases RO.link with ⟨hkin, hpar, hdep, hmf2⟩ | ⟨p, prow, hp1, hp2, hp3, hp4, hp5⟩
              · exact Or.inl ⟨List.mem_cons_of_mem _ hkin, hpar, hdep, hmf2⟩
              · exact Or.inr ⟨p, prow, hp1, by omega, hp3, hp4, hp5⟩
          · -- k > stR.nextId: a rest row
            have RO := MrR k r (by omega) h2
            refine ⟨RO.idEq, RO.srcProps, RO.srcFlds, ?_, ?_⟩
            · intro l hl c hc
              have h6 := RO.kidsRange l hl c hc
              omega
            · rcases RO.link with ⟨hkin, hpar, hdep, hmf2⟩ | ⟨p, prow, hp1, hp2, hp3, hp4, hp5⟩
              · exact Or.inl ⟨List.mem_cons_of_mem _ hkin, hpar, hdep, hmf2⟩
              · exact Or.inr ⟨p, prow, hp1, by omega, hp3, hp4, hp5⟩
      · -- non-recursing case
        have hrecF : ((getFieldMeta ⟨n, fv⟩ mf).hasChildFields ||
            (getFieldMeta ⟨n, fv⟩ mf).hasMultiFields) = false := by
          revert hrec
          cases ((getFieldMeta ⟨n, fv⟩ mf).hasChildFields ||
            (getFieldMeta ⟨n, fv⟩ mf).hasMultiFields) <;> simp
        rw [normalizeFields_cons]
        simp only [hrecF, Bool.false_eq_true, if_false]
        have hKB3 : KeysBounded ⟨st.nextId + 1,
            (st.nextId, mkRow st.nextId pid depth mf paths n fv none) :: st.byId,
            st.maxNestedDepth⟩ := by
          intro k r h
          dsimp only at h ⊢
          rw [lookupM_cons] at h
          split at h
          · omega
          · exact Nat.lt_succ_of_lt (KB k r h)
        rcases hR : normalizeFields rest paths depth mf pid ⟨st.nextId + 1,
            (st.nextId, mkRow st.nextId pid depth mf paths n fv none) :: st.byId,
            st.maxNestedDepth⟩ with ⟨st4, restIds⟩
        simp only [hR]
        have Mrest := ih rest paths depth mf pid ⟨st.nextId + 1,
          (st.nextId, mkRow st.nextId pid depth mf paths n fv none) :: st.byId,
          st.maxNestedDepth⟩ hsize2 hKB3
        rw [hR] at Mrest
        have f2 : st.nextId + 1 ≤ st4.nextId := Mrest.mono
        have MrP := Mrest.pres
        have MrT := Mrest.total
        have MrR := Mrest.rows
        have MrI := Mrest.idsRange
        have MrL := Mrest.len
        dsimp only at MrP MrT MrR MrI MrL
        have hrow4 : lookupM st4.byId st.nextId =
            some (mkRow st.nextId pid depth mf paths n fv none) := by
          have h3 := MrP st.nextId (by omega)
          rw [h3, lookupM_cons, if_pos rfl]
        refine ⟨by omega, ?_, ?_, Mrest.bounded, ?_, ?_, ?_⟩
        · dsimp only at MrL ⊢
          simp only [List.length_cons] at MrL
          omega
        · intro k hk
          have h3 := MrP k (by omega)
          rw [h3, lookupM_cons, if_neg (by omega)]
        · intro i hi
          rcases List.mem_cons.mp hi with h | h
          · subst h
            exact ⟨le_refl _, by omega⟩
          · have h5 := MrI i h
            exact ⟨by omega, h5.2⟩
        · intro k h1 h2
          rcases Nat.eq_or_lt_of_le h1 with rfl | h4
          · exact ⟨_, hrow4⟩
          · exact MrT k (by omega) h2
        · intro k r h1 h2
          rcases Nat.eq_or_lt_of_le h1 with rfl | h4
          · have hr : r = mkRow st.nextId pid depth mf paths n fv none := by
              rw [hrow4] at h2
              exact (Option.some.inj h2).symm
            subst hr
            refine ⟨rfl, rfl, rfl, ?_, ?_⟩
            · intro l hl
              simp [mkRow] at hl
            · exact Or.inl ⟨List.mem_cons_self _ _, rfl, rfl, rfl⟩
          · have RO := MrR k r (by omega) h2
            refine ⟨RO.idEq, RO.srcProps, RO.srcFlds, ?_, ?_⟩
            · intro l hl c hc
              have h6 := RO.kidsRange l hl c hc
              omega
            · rcases RO.link with ⟨hkin, hpar, hdep, hmf2⟩ | ⟨p, prow, hp1, hp2, hp3, hp4, hp5⟩
              · exact Or.inl ⟨List.mem_cons_of_mem _ hkin, hpar, hdep, hmf2⟩
              · exact Or.inr ⟨p, prow, hp1, by omega, hp3, hp4, hp5⟩

theorem KB0 : KeysBounded ⟨0, [], 0⟩ := by
  intro k r h
  simp [lookupM] at h

theorem normalize_master (T : Fields) :
    MasterOut ⟨0, [], 0⟩ 0 false none
      (normalizeFields T [] 0 false none ⟨0, [], 0⟩).1
      (normalizeFields T [] 0 false none ⟨0, [], 0⟩).2 :=
  normalizeFields_master_aux (sizeOf T) T [] 0 false none ⟨0, [], 0⟩ (le_refl _) KB0

theorem normalize_byId (T : Fields) :
    (normalize T).byId = (normalizeFields T [] 0 false none ⟨0, [], 0⟩).1.byId := rfl

theorem normalize_roots (T : Fields) :
    (normalize T).rootLevelFields = (normalizeFields T [] 0 false none ⟨0, [], 0⟩).2 := rfl

/-! The fuelled twins agree with the originals when given enough fuel. -/

theorem normalizeFieldsC_eq (fuel : Nat) :
    ∀ (props : Fields) (paths : List String) (depth : Nat) (mf : Bool)
      (pid : Option Nat) (st : NormState), sizeOf props ≤ fuel →
      normalizeFieldsC fuel props paths depth mf pid st =
        normalizeFields props paths depth mf pid st := by
  induction fuel with
  | zero =>
    intro props paths depth mf pid st hsize
    have := sizeOf_fields_pos props
    omega
  | succ fuel ih =>
    intro props paths depth mf pid st hsize
    match props with
    | [] =>
      rw [normalizeFields_nil]
      rfl
    | (n, fv) :: rest =>
      have hsize1 : sizeOf (recContainer fv (getFieldMeta ⟨n, fv⟩ mf).childFieldsName) ≤ fuel := by
        have := sizeOf_head_container_lt n fv rest (getFieldMeta ⟨n, fv⟩ mf).childFieldsName
        omega
      have hsize2 : sizeOf rest ≤ fuel := by
        have := sizeOf_tail_lt n fv rest
        omega
      by_cases hrec :
        ((getFieldMeta ⟨n, fv⟩ mf).hasChildFields ||
          (getFieldMeta ⟨n, fv⟩ mf).hasMultiFields) = true
      · have hnd := nextDepth_eq ⟨n, fv⟩ mf depth hrec
        rw [normalizeFields_cons]
        simp only [normalizeFieldsC, hrec, hnd, if_true]
        rw [ih (recContainer fv (getFieldMeta ⟨n, fv⟩ mf).childFieldsName) (paths ++ [n])
          (depth + 1) (getFieldMeta ⟨n, fv⟩ mf).canHaveMultiFields (some st.nextId)
          ⟨st.nextId + 1, st.byId, max st.maxNestedDepth (depth + 1)⟩ hsize1]
        rw [ih rest paths depth mf pid _ hsize2]
      · have hrecF : ((getFieldMeta ⟨n, fv⟩ mf).hasChildFields ||
            (getFieldMeta ⟨n, fv⟩ mf).hasMultiFields) = false := by
          revert hrec
          cases ((getFieldMeta ⟨n, fv⟩ mf).hasChildFields ||
            (getFieldMeta ⟨n, fv⟩ mf).hasMultiFields) <;> simp
        rw [normalizeFields_cons]
        simp only [normalizeFieldsC, hrecF, Bool.false_eq_true, if_false]
        rw [ih rest paths depth mf pid _ hsize2]

theorem normalize_byId_eval (T : Fields) (fuel : Nat) (h : sizeOf T ≤ fuel) :
    (normalize T).byId = (normalizeFieldsC fuel T [] 0 false none ⟨0, [], 0⟩).1.byId := by
  rw [normalizeFieldsC_eq fuel T [] 0 false none ⟨0, [], 0⟩ h]
  rfl

/-! Ancestor-chain machinery. -/

theorem ancChain_mono (byId : Table) :
    ∀ (fuel fuel2 : Nat) (o : Option Nat) (l : List (Nat × String)), fuel ≤ fuel2 →
      ancChain byId fuel o = some l → ancChain byId fuel2 o = some l := by
  intro fuel
  induction fuel with
  | zero =>
    intro fuel2 o l _ h
    cases o with
    | none =>
      simp [ancChain] at h
      subst h
      cases fuel2 <;> simp [ancChain]
    | some k => simp [ancChain] at h
  | succ f ihf =>
    intro fuel2 o l hle h
    cases o with
    | none =>
      simp [ancChain] at h
      subst h
      cases fuel2 <;> simp [ancChain]
    | some k =>
      obtain ⟨f2, rfl⟩ : ∃ f2, fuel2 = f2 + 1 := ⟨fuel2 - 1, by omega⟩
      cases hl : lookupM byId k with
      | none => simp [ancChain, hl] at h
      | some row =>
        simp only [ancChain, hl] at h ⊢
        simp only [Option.map_eq_some'] at h ⊢
        obtain ⟨lp, hlp, rfl⟩ := h
        exact ⟨lp, ihf f2 row.parentId lp (by omega) hlp, rfl⟩

theorem chain_aux (t : Table) (roots : List Nat)
    (F : ∀ k row, lookupM t k = some row →
      (row.parentId = none ∧ k ∈ roots) ∨
      (∃ p prow, row.parentId = some p ∧ p < k ∧ lookupM t p = some prow)) :
    ∀ id row, lookupM t id = some row →
      ∃ chain r nm chainRest, ancChain t (id + 1) (some id) = some chain ∧
        chain = (r, nm) :: chainRest ∧ r ∈ roots ∧
        ((chain.map Prod.fst).Pairwise (· < ·)) ∧ (∀ e ∈ chain, e.1 ≤ id) := by
  intro id
  induction id using Nat.strong_induction_on with
  | _ id IH =>
    intro row h
    rcases F id row h with ⟨hnone, hroot⟩ | ⟨p, prow, hp, hlt, hlook⟩
    · refine ⟨[(id, row.source.name)], id, row.source.name, [], ?_, rfl, hroot, ?_, ?_⟩
      · simp [ancChain, h, hnone]
      · simp
      · simp
    · obtain ⟨chainP, r, nm, restP, hcP, hshape, hrootP, hsorted, hbound⟩ := IH p hlt prow hlook
      have hcP2 : ancChain t id (some p) = some chainP :=
        ancChain_mono t (p + 1) id (some p) chainP (by omega) hcP
      refine ⟨chainP ++ [(id, row.source.name)], r, nm, restP ++ [(id, row.source.name)],
        ?_, ?_, hrootP, ?_, ?_⟩
      · simp [ancChain, h, hp, hcP2]
      · rw [hshape]
        rfl
      · rw [List.map_append]
        rw [List.pairwise_append]
        refine ⟨hsorted, by simp, ?_⟩
        intro a ha b hb
        simp at hb
        subst hb
        simp at ha
        obtain ⟨nm2, hnm2⟩ := ha
        have := hbound (a, nm2) hnm2
        simp at this
        omega
      · intro e he
        rcases List.mem_append.mp he with h1 | h1
        · have := hbound e h1
          omega
        · simp at h1
          subst h1
          simp

/-! Claim theorems. -/

/-- C10: in every table produced by `normalize`, every row's `source` has
both the `properties` and the `fields` key stripped, whatever the row's
type (the destructuring `const { properties, fields, ...rest } = field`
removes both keys unconditionally). -/
theorem normalize_source_stripped (T : Fields) (id : Nat) (row : NormalizedField)
    (h : lookupM (normalize T).byId id = some row) :
    row.source.value.props = none ∧ row.source.value.flds = none := by
  have Mo := normalize_master T
  have h2 : lookupM (normalizeFields T [] 0 false none ⟨0, [], 0⟩).1.byId id = some row := by
    rw [← normalize_byId]
    exact h
  have RO := Mo.rows id row (Nat.zero_le _) h2
  exact ⟨RO.srcProps, RO.srcFlds⟩

/-- Witness for C10 at a concrete input: an `object` field carrying a stray
`fields` key has both keys stripped from its stored `source`. -/
theorem normalize_source_stripped_witness :
    lookupM (normalize exStray).byId 0 = some exStrayRow0 ∧
    exStrayRow0.source.value.props = none ∧ exStrayRow0.source.value.flds = none := by
  have h : lookupM (normalize exStray).byId 0 = some exStrayRow0 := by
    rw [normalize_byId_eval _ 1000000 (by decide)]
    rfl
  exact ⟨h, normalize_source_stripped exStray 0 exStrayRow0 h⟩

/-- Counterexample to C2 as stated: in `normalize exMulti` the multi-field
member (row 1) has `nestedDepth` 1 while its container parent (row 0) has
`nestedDepth` 0 — a multi-field member does not share its parent's depth,
and crossing the flat `fields` container did increment the depth. -/
theorem normalize_multiField_depth_cex :
    ((lookupM (normalize exMulti).byId 1).map fun r =>
        (r.isMultiField, r.parentId, r.nestedDepth)) = some (true, some 0, 1) ∧
    ((lookupM (normalize exMulti).byId 0).map fun r => r.nestedDepth) = some 0 ∧
    (1 : Nat) ≠ 0 := by
  refine ⟨?_, ?_, by decide⟩ <;> (rw [normalize_byId_eval _ 1000000 (by decide)]; rfl)

/-- C2 (amended): in every table produced by `normalize`, every row that has
a parent sits exactly one nesting level below it — the depth increments on
every container crossing, including multi-field (`fields`) containers, so a
multi-field member's `nestedDepth` is its container parent's plus one. -/
theorem normalize_child_nestedDepth (T : Fields) (id p : Nat) (row prow : NormalizedField)
    (h1 : lookupM (normalize T).byId id = some row)
    (h2 : row.parentId = some p)
    (h3 : lookupM (normalize T).byId p = some prow) :
    row.nestedDepth = prow.nestedDepth + 1 := by
  have Mo := normalize_master T
  rw [normalize_byId] at h1 h3
  have RO := Mo.rows id row (Nat.zero_le _) h1
  rcases RO.link with ⟨_, hpar, _, _⟩ | ⟨p2, prow2, hp1, _, _, hp4, hp5⟩
  · rw [hpar] at h2
    cases h2
  · rw [hp1] at h2
    obtain rfl := Option.some.inj h2
    rw [hp4] at h3
    obtain rfl := Option.some.inj h3
    exact hp5

/-- Witness for the amended C2 at a concrete input. -/
theorem normalize_child_nestedDepth_witness :
    lookupM (normalize exMulti).byId 1 = some exMultiRow1 ∧
    exMultiRow1.parentId = some 0 ∧
    lookupM (normalize exMulti).byId 0 = some exMultiRow0 ∧
    exMultiRow1.nestedDepth = exMultiRow0.nestedDepth + 1 := by
  have h1 : lookupM (normalize exMulti).byId 1 = some exMultiRow1 := by
    rw [normalize_byId_eval _ 1000000 (by decide)]
    rfl
  have hp : exMultiRow1.parentId = some 0 := rfl
  have h0 : lookupM (normalize exMulti).byId 0 = some exMultiRow0 := by
    rw [normalize_byId_eval _ 1000000 (by decide)]
    rfl
  exact ⟨h1, hp, h0, normalize_child_nestedDepth exMulti 1 0 exMultiRow1 exMultiRow0 h1 hp h0⟩

/-- C6: referential integrity of `normalize` output — every `parentId` and
every `childFields` entry is a key of `byId`, and following `parentId`
upwards from any row succeeds within bounded fuel (so the chain is acyclic:
its identifiers are strictly increasing root-to-node) and starts at a
member of `rootLevelFields`. -/
theorem normalize_table_integrity (T : Fields) (id : Nat) (row : NormalizedField)
    (h : lookupM (normalize T).byId id = some row) :
    (∀ p, row.parentId = some p → ∃ prow, lookupM (normalize T).byId p = some prow) ∧
    (∀ l, row.childFields = some l → ∀ c ∈ l, ∃ crow, lookupM (normalize T).byId c = some crow) ∧
    (∃ chain r nm chainRest,
      ancChain (normalize T).byId (normalize T).byId.length (some id) = some chain ∧
      chain = (r, nm) :: chainRest ∧ r ∈ (normalize T).rootLevelFields ∧
      ((chain.map Prod.fst).Pairwise (· < ·))) := by
  have Mo := normalize_master T
  rw [normalize_byId] at h
  have hlen : (normalizeFields T [] 0 false none ⟨0, [], 0⟩).1.byId.length =
      (normalizeFields T [] 0 false none ⟨0, [], 0⟩).1.nextId := by
    have := Mo.len
    simpa using this
  have F : ∀ k r2, lookupM (normalizeFields T [] 0 false none ⟨0, [], 0⟩).1.byId k = some r2 →
      (r2.parentId = none ∧ k ∈ (normalize T).rootLevelFields) ∨
      (∃ p prow, r2.parentId = some p ∧ p < k ∧
        lookupM (normalizeFields T [] 0 false none ⟨0, [], 0⟩).1.byId p = some prow) := by
    intro k r2 hk
    have RO := Mo.rows k r2 (Nat.zero_le _) hk
    rcases RO.link with ⟨hin, hpar, _, _⟩ | ⟨p, prow, hp1, _, hp3, hp4, _⟩
    · left
      exact ⟨hpar, by rw [normalize_roots]; exact hin⟩
    · right
      exact ⟨p, prow, hp1, hp3, hp4⟩
  refine ⟨?_, ?_, ?_⟩
  · intro p hp
    have RO := Mo.rows id row (Nat.zero_le _) h
    rcases RO.link with ⟨_, hpar, _, _⟩ | ⟨p2, prow2, hp1, _, _, hp4, _⟩
    · rw [hpar] at hp
      cases hp
    · rw [hp1] at hp
      obtain rfl := Option.some.inj hp
      exact ⟨prow2, by rw [normalize_byId]; exact hp4⟩
  · intro l hl c hc
    have RO := Mo.rows id row (Nat.zero_le _) h
    have hcr := RO.kidsRange l hl c hc
    obtain ⟨crow, hcrow⟩ := Mo.total c hcr.1 hcr.2
    exact ⟨crow, by rw [normalize_byId]; exact hcrow⟩
  · obtain ⟨chain, r, nm, chainRest, hc, hshape, hroot, hsorted, hbound⟩ :=
      chain_aux _ _ F id row h
    have hid : id < (normalizeFields T [] 0 false none ⟨0, [], 0⟩).1.nextId :=
      Mo.bounded id row h
    have hc2 : ancChain (normalize T).byId (normalize T).byId.length (some id) = some chain := by
      rw [normalize_byId, hlen]
      exact ancChain_mono _ (id + 1) _ (some id) chain (by omega) hc
    exact ⟨chain, r, nm, chainRest, hc2, hshape, hroot, hsorted⟩

/-- Witness for C6 at a concrete input. -/
theorem normalize_table_integrity_witness :
    lookupM (normalize exMulti).byId 1 = some exMultiRow1 ∧
    (∃ chain r nm chainRest,
      ancChain (normalize exMulti).byId (normalize exMulti).byId.length (some 1) = some chain ∧
      chain = (r, nm) :: chainRest ∧ r ∈ (normalize exMulti).rootLevelFields ∧
      ((chain.map Prod.fst).Pairwise (· < ·))) := by
  have h1 : lookupM (normalize exMulti).byId 1 = some exMultiRow1 := by
    rw [normalize_byId_eval _ 1000000 (by decide)]
    rfl
  exact ⟨h1, (normalize_table_integrity exMulti 1 exMultiRow1 h1).2.2⟩


/-- C5: `getFieldMeta` with `isMultiField = true` forces all four
child-capability flags to false for every field, and an unrecognized type
yields no designated container and both capability flags false. -/
theorem getFieldMeta_capability_flags (field : NField) :
    ((getFieldMeta field true).canHaveChildFields = false ∧
     (getFieldMeta field true).hasChildFields = false ∧
     (getFieldMeta field true).canHaveMultiFields = false ∧
     (getFieldMeta field true).hasMultiFields = false) ∧
    (∀ mf : Bool, field.val.type ≠ "text" → field.val.type ≠ "keyword" →
      field.val.type ≠ "object" → field.val.type ≠ "nested" →
      (getFieldMeta field mf).childFieldsName = none ∧
      (getFieldMeta field mf).canHaveChildFields = false ∧
      (getFieldMeta field mf).canHaveMultiFields = false) := by
  constructor
  · simp [getFieldMeta]
  · intro mf h1 h2 h3 h4
    have hc : getChildFieldsName field.val.type = none := by
      simp [getChildFieldsName, h1, h2, h3, h4]
    cases mf <;> simp [getFieldMeta, hc]

/-- Witness for C5 at a concrete unrecognized type. -/
theorem getFieldMeta_capability_flags_witness :
    (getFieldMeta ⟨"a", Field.mk "integer" none none []⟩ false).childFieldsName = none ∧
    (getFieldMeta ⟨"a", Field.mk "integer" none none []⟩ false).canHaveChildFields = false ∧
    (getFieldMeta ⟨"a", Field.mk "integer" none none []⟩ false).canHaveMultiFields = false :=
  (getFieldMeta_capability_flags ⟨"a", Field.mk "integer" none none []⟩).2 false
    (by decide) (by decide) (by decide) (by decide)

/-- C9: the delete-children policy on a type change from `text`. -/
theorem shouldDeleteChildFields_examples :
    shouldDeleteChildFieldsAfterTypeChange "text" "object" = true ∧
    shouldDeleteChildFieldsAfterTypeChange "text" "keyword" = false := by
  constructor <;> rfl

/-- C7: `isStateValid` is indeterminate exactly when some present relevant
section is indeterminate; otherwise it is the conjunction of the present
sections' validities (in particular `true` when all are absent). -/
theorem isStateValid_spec (state : State) :
    isStateValid state =
      (if ((stateWithValidity state).filterMap id).any (fun v => v.isValid.isNone)
       then none
       else some (((stateWithValidity state).filterMap id).all
         (fun v => v.isValid.getD true))) := by
  obtain ⟨c, j, f⟩ := state
  rcases c with _ | ⟨_ | b1⟩ <;> rcases j with _ | ⟨_ | b2⟩ <;> rcases f with _ | ⟨_ | b3⟩ <;>
    simp [isStateValid, stateWithValidity, Bool.and_assoc]

/-- C8: `getFieldConfig` errors exactly when a prop is supplied and either
the parameter has no `props` table or that table has no entry for the prop;
otherwise it returns the (possibly empty) field config. -/
theorem getFieldConfig_error_iff (defs : String → ParamDefinition) (param : String)
    (prop : Option String) :
    ((∃ e, getFieldConfig defs param prop = .error e) ↔
      (∃ p, prop = some p ∧ ((defs param).props = none ∨
        ∃ tbl, (defs param).props = some tbl ∧ lookupP tbl p = none))) ∧
    (prop = none → getFieldConfig defs param none = .ok ((defs param).fieldConfig.getD [])) ∧
    (∀ p tbl entry, prop = some p → (defs param).props = some tbl → lookupP tbl p = some entry →
      getFieldConfig defs param prop = .ok (entry.fieldConfig.getD [])) := by
  refine ⟨?_, ?_, ?_⟩
  · cases prop with
    | none => simp [getFieldConfig]
    | some p =>
      cases hpp : (defs param).props with
      | none => simp [getFieldConfig, hpp]
      | some tbl =>
        cases he : lookupP tbl p with
        | none => simp [getFieldConfig, hpp, he]
        | some entry => simp [getFieldConfig, hpp, he]
  · intro _
    simp [getFieldConfig]
  · intro p tbl entry hp hpp he
    subst hp
    simp [getFieldConfig, hpp, he]

/-- Witness for C8: with an empty definition table, a prop lookup errors
and a plain lookup returns the empty config. -/
theorem getFieldConfig_error_iff_witness :
    (∃ e, getFieldConfig exDefs "boost" (some "min") = .error e) ∧
    getFieldConfig exDefs "boost" none = .ok ((exDefs "boost").fieldConfig.getD []) :=
  ⟨(getFieldConfig_error_iff exDefs "boost" (some "min")).1.mpr ⟨"min", rfl, Or.inl rfl⟩,
   (getFieldConfig_error_iff exDefs "boost" none).2.1 rfl⟩


/-! Round-trip machinery (claim C1). -/

theorem setKey_append (acc : Fields) (nm : String) (v : Field)
    (h : ∀ e ∈ acc, e.1 ≠ nm) : setKey acc nm v = acc ++ [(nm, v)] := by
  induction acc with
  | nil => rfl
  | cons hd tl ih =>
    obtain ⟨hn, hv⟩ := hd
    have h1 : hn ≠ nm := h (hn, hv) (List.mem_cons_self _ _)
    simp only [setKey, if_neg h1]
    rw [ih (fun e he => h e (List.mem_cons_of_mem _ he))]
    rfl

theorem deNormalizePaths_nil (byId : Table) (fuel : Nat) (acc : Fields) :
    deNormalizePaths byId fuel [] acc = some acc := by
  rw [deNormalizePaths]

theorem deNormalizePaths_cons_noKids (byId : Table) (fuel : Nat) (id : Nat)
    (rest : List Nat) (acc : Fields) (row : NormalizedField)
    (h : lookupM byId id = some row) (hk : row.childFields = none) :
    deNormalizePaths byId fuel (id :: rest) acc =
      deNormalizePaths byId fuel rest (setKey acc row.source.name row.source.value) := by
  rw [deNormalizePaths]
  simp [h, hk]

theorem deNormalizePaths_cons_kids (byId : Table) (fuel : Nat) (id : Nat)
    (rest : List Nat) (acc : Fields) (row : NormalizedField) (kids : List Nat)
    (cfn : ChildFieldName) (sub : Fields)
    (h : lookupM byId id = some row) (hk : row.childFields = some kids)
    (hc : row.childFieldsName = some cfn)
    (hs : deNormalizePaths byId fuel kids [] = some sub) :
    deNormalizePaths byId (fuel + 1) (id :: rest) acc =
      deNormalizePaths byId (fuel + 1) rest
        (setKey acc row.source.name (setContainer row.source.value cfn sub)) := by
  rw [deNormalizePaths]
  simp [h, hk, hc, hs]

theorem mkRow_source (id : Nat) (pid : Option Nat) (depth : Nat) (mf : Bool)
    (paths : List String) (n : String) (fv : Field) (kidsOpt : Option (List Nat)) :
    (mkRow id pid depth mf paths n fv kidsOpt).source =
      ⟨n, Field.mk fv.type none none fv.extra⟩ := rfl

theorem mkRow_childFields (id : Nat) (pid : Option Nat) (depth : Nat) (mf : Bool)
    (paths : List String) (n : String) (fv : Field) (kidsOpt : Option (List Nat)) :
    (mkRow id pid depth mf paths n fv kidsOpt).childFields = kidsOpt := rfl

theorem mkRow_childFieldsName (id : Nat) (pid : Option Nat) (depth : Nat) (mf : Bool)
    (paths : List String) (n : String) (fv : Field) (kidsOpt : Option (List Nat)) :
    (mkRow id pid depth mf paths n fv kidsOpt).childFieldsName =
      getChildFieldsName fv.type := rfl

theorem getFieldMeta_noCont (n ty : String) (ex : List (String × String)) (mf : Bool) :
    ((getFieldMeta ⟨n, Field.mk ty none none ex⟩ mf).hasChildFields ||
     (getFieldMeta ⟨n, Field.mk ty none none ex⟩ mf).hasMultiFields) = false := by
  cases mf with
  | true => simp [getFieldMeta]
  | false =>
    cases hG : getChildFieldsName ty with
    | none => simp [getFieldMeta, Field.type, hG, containerAt]
    | some cfn =>
      cases cfn <;>
        simp [getFieldMeta, Field.type, hG, containerAt, Field.props, Field.flds]

theorem denorm_of_wf (mf : Bool) (props : Fields) (hWF : WellFormed mf props) :
    DenormGood mf props := by
  induction hWF with
  | nil inMulti =>
    intro paths depth pid st KB m fuel acc hagree hfuel hacc
    rw [normalizeFields_nil, deNormalizePaths_nil]
    simp
  | consPlain inMulti n ty ex rest hdup hrest IHrest =>
    intro paths depth pid st KB m fuel acc hagree hfuel hacc
    have hrecF := getFieldMeta_noCont n ty ex inMulti
    simp only [normalizeFields_cons, hrecF, Bool.false_eq_true, if_false] at hagree hfuel ⊢
    rcases hR : normalizeFields rest paths depth inMulti pid
        ⟨st.nextId + 1,
         (st.nextId, mkRow st.nextId pid depth inMulti paths n (Field.mk ty none none ex) none)
           :: st.byId, st.maxNestedDepth⟩ with ⟨st4, restIds⟩
    simp only [hR] at hagree hfuel ⊢
    have hKB3 : KeysBounded ⟨st.nextId + 1,
        (st.nextId, mkRow st.nextId pid depth inMulti paths n (Field.mk ty none none ex) none)
          :: st.byId, st.maxNestedDepth⟩ := by
      intro k r h
      dsimp only at h ⊢
      rw [lookupM_cons] at h
      split at h
      · omega
      · exact Nat.lt_succ_of_lt (KB k r h)
    have Mrest := normalizeFields_master_aux (sizeOf rest) rest paths depth inMulti pid
      ⟨st.nextId + 1,
       (st.nextId, mkRow st.nextId pid depth inMulti paths n (Field.mk ty none none ex) none)
         :: st.byId, st.maxNestedDepth⟩ (le_refl _) hKB3
    rw [hR] at Mrest
    have f2 : st.nextId + 1 ≤ st4.nextId := Mrest.mono
    have MrP := Mrest.pres
    dsimp only at MrP
    have hrowm : lookupM m st.nextId =
        some (mkRow st.nextId pid depth inMulti paths n (Field.mk ty none none ex) none) := by
      rw [hagree st.nextId (le_refl _) (by omega)]
      rw [MrP st.nextId (by omega), lookupM_cons, if_pos rfl]
    rw [deNormalizePaths_cons_noKids m fuel st.nextId restIds acc _ hrowm rfl]
    simp only [mkRow_source, Field.type, Field.extra]
    have hne2 : ∀ e ∈ acc, e.1 ≠ n := by
      intro e he hcontr
      exact hacc e he (by simp [hcontr])
    rw [setKey_append acc n _ hne2]
    have happ := IHrest paths depth pid ⟨st.nextId + 1,
      (st.nextId, mkRow st.nextId pid depth inMulti paths n (Field.mk ty none none ex) none)
        :: st.byId, st.maxNestedDepth⟩ hKB3 m fuel
      (acc ++ [(n, Field.mk ty none none ex)])
      (by
        simp only [hR]
        exact fun k h1 h2 => hagree k (by omega) h2)
      (by
        simp only [hR]
        omega)
      (by
        intro e he
        rcases List.mem_append.mp he with h1 | h1
        · intro hh
          exact hacc e h1 (by simp only [List.map_cons]; exact List.mem_cons_of_mem _ hh)
        · simp at h1
          subst h1
          exact hdup)
    simp only [hR] at happ
    rw [happ]
    simp
  | consMultiCont n ty ex rest cs hty hne hdup hcs hrest IHcs IHrest =>
    intro paths depth pid st KB m fuel acc hagree hfuel hacc
    have hlen0 : 0 < cs.length := List.length_pos.mpr hne
    have hrecT : ((getFieldMeta ⟨n, Field.mk ty none (some cs) ex⟩ false).hasChildFields ||
        (getFieldMeta ⟨n, Field.mk ty none (some cs) ex⟩ false).hasMultiFields) = true := by
      simp [getFieldMeta, Field.type, hty, containerAt, Field.flds, hlen0]
    have hcont : recContainer (Field.mk ty none (some cs) ex)
        (getFieldMeta ⟨n, Field.mk ty none (some cs) ex⟩ false).childFieldsName = cs := by
      simp [recContainer, getFieldMeta, Field.type, hty, Field.flds]
    have hmf2 : (getFieldMeta ⟨n, Field.mk ty none (some cs) ex⟩ false).canHaveMultiFields
        = true := by
      simp [getFieldMeta, Field.type, hty]
    simp only [normalizeFields_cons, hrecT, hcont, hmf2, Bool.or_true,
      eq_self_iff_true, if_true] at hagree hfuel ⊢
    rcases hI : normalizeFields cs (paths ++ [n]) (depth + 1) true (some st.nextId)
        ⟨st.nextId + 1, st.byId, max st.maxNestedDepth (depth + 1)⟩ with ⟨stR, kidIds⟩
    simp only [hI] at hagree hfuel ⊢
    have hKBM : KeysBounded ⟨st.nextId + 1, st.byId, max st.maxNestedDepth (depth + 1)⟩ := by
      intro k r h
      exact Nat.lt_succ_of_lt (KB k r h)
    have Min := normalizeFields_master_aux (sizeOf cs) cs (paths ++ [n]) (depth + 1) true
      (some st.nextId) ⟨st.nextId + 1, st.byId, max st.maxNestedDepth (depth + 1)⟩
      (le_refl _) hKBM
    rw [hI] at Min
    have f1 : st.nextId + 1 ≤ stR.nextId := Min.mono
    have hKB3 : KeysBounded ⟨stR.nextId,
        (st.nextId, mkRow st.nextId pid depth false paths n (Field.mk ty none (some cs) ex)
          (some kidIds)) :: stR.byId, stR.maxNestedDepth⟩ := by
      intro k r h
      dsimp only at h ⊢
      rw [lookupM_cons] at h
      split at h
      · omega
      · exact Min.bounded k r h
    rcases hR : normalizeFields rest paths depth false pid ⟨stR.nextId,
        (st.nextId, mkRow st.nextId pid depth false paths n (Field.mk ty none (some cs) ex)
          (some kidIds)) :: stR.byId, stR.maxNestedDepth⟩ with ⟨st4, restIds⟩
    simp only [hR] at hagree hfuel ⊢
    have Mrest := normalizeFields_master_aux (sizeOf rest) rest paths depth false pid
      ⟨stR.nextId,
       (st.nextId, mkRow st.nextId pid depth false paths n (Field.mk ty none (some cs) ex)
         (some kidIds)) :: stR.byId, stR.maxNestedDepth⟩ (le_refl _) hKB3
    rw [hR] at Mrest
    have f2 : stR.nextId ≤ st4.nextId := Mrest.mono
    have MrP := Mrest.pres
    dsimp only at MrP
    have hrowm : lookupM m st.nextId =
        some (mkRow st.nextId pid depth false paths n (Field.mk ty none (some cs) ex)
          (some kidIds)) := by
      rw [hagree st.nextId (le_refl _) (by omega)]
      rw [MrP st.nextId (by omega), lookupM_cons, if_pos rfl]
    have hmid : ∀ k, st.nextId + 1 ≤ k → k < stR.nextId →
        lookupM m k = lookupM stR.byId k := by
      intro k hk1 hk2
      rw [hagree k (by omega) (by omega)]
      rw [MrP k (by omega), lookupM_cons, if_neg (by omega)]
    obtain ⟨fuel1, rfl⟩ : ∃ f1, fuel = f1 + 1 := ⟨fuel - 1, by omega⟩
    have hsub := IHcs (paths ++ [n]) (depth + 1) (some st.nextId)
      ⟨st.nextId + 1, st.byId, max st.maxNestedDepth (depth + 1)⟩ hKBM m fuel1 []
      (by
        simp only [hI]
        exact fun k h1 h2 => hmid k h1 h2)
      (by
        simp only [hI]
        omega)
      (by simp)
    rw [hI] at hsub
    rw [deNormalizePaths_cons_kids m fuel1 st.nextId restIds acc _ kidIds .fields cs hrowm
      (by rw [mkRow_childFields]) (by rw [mkRow_childFieldsName]; simp [Field.type, hty])
      (by simpa using hsub)]
    simp only [mkRow_source]
    have hne2 : ∀ e ∈ acc, e.1 ≠ n := by
      intro e he hcontr
      exact hacc e he (by simp [hcontr])
    have hrebuild : setContainer
        (Field.mk (Field.mk ty none (some cs) ex).type none none
          (Field.mk ty none (some cs) ex).extra) ChildFieldName.fields cs =
        Field.mk ty none (some cs) ex := rfl
    rw [hrebuild, setKey_append acc n _ hne2]
    have happ := IHrest paths depth pid ⟨stR.nextId,
      (st.nextId, mkRow st.nextId pid depth false paths n (Field.mk ty none (some cs) ex)
        (some kidIds)) :: stR.byId, stR.maxNestedDepth⟩ hKB3 m (fuel1 + 1)
      (acc ++ [(n, Field.mk ty none (some cs) ex)])
      (by
        simp only [hR]
        exact fun k h1 h2 => hagree k (by omega) h2)
      (by
        simp only [hR]
        omega)
      (by
        intro e he
        rcases List.mem_append.mp he with h1 | h1
        · intro hh
          exact hacc e h1 (by simp only [List.map_cons]; exact List.mem_cons_of_mem _ hh)
        · simp at h1
          subst h1
          exact hdup)
    simp only [hR] at happ
    rw [happ]
    simp
  | consChildCont n ty ex rest cs hty hne hdup hcs hrest IHcs IHrest =>
    intro paths depth pid st KB m fuel acc hagree hfuel hacc
    have hlen0 : 0 < cs.length := List.length_pos.mpr hne
    have hrecT : ((getFieldMeta ⟨n, Field.mk ty (some cs) none ex⟩ false).hasChildFields ||
        (getFieldMeta ⟨n, Field.mk ty (some cs) none ex⟩ false).hasMultiFields) = true := by
      simp [getFieldMeta, Field.type, hty, containerAt, Field.props, hlen0]
    have hcont : recContainer (Field.mk ty (some cs) none ex)
        (getFieldMeta ⟨n, Field.mk ty (some cs) none ex⟩ false).childFieldsName = cs := by
      simp [recContainer, getFieldMeta, Field.type, hty, Field.props]
    have hmf2 : (getFieldMeta ⟨n, Field.mk ty (some cs) none ex⟩ false).canHaveMultiFields
        = false := by
      simp [getFieldMeta, Field.type, hty]
    have hcc : (getFieldMeta ⟨n, Field.mk ty (some cs) none ex⟩ false).canHaveChildFields
        = true := by
      simp [getFieldMeta, Field.type, hty]
    simp only [normalizeFields_cons, hrecT, hcont, hmf2, hcc, Bool.true_or, Bool.or_false,
      eq_self_iff_true, if_true] at hagree hfuel ⊢
    rcases hI : normalizeFields cs (paths ++ [n]) (depth + 1) false (some st.nextId)
        ⟨st.nextId + 1, st.byId, max st.maxNestedDepth (depth + 1)⟩ with ⟨stR, kidIds⟩
    simp only [hI] at hagree hfuel ⊢
    have hKBM : KeysBounded ⟨st.nextId + 1, st.byId, max st.maxNestedDepth (depth + 1)⟩ := by
      intro k r h
      exact Nat.lt_succ_of_lt (KB k r h)
    have Min := normalizeFields_master_aux (sizeOf cs) cs (paths ++ [n]) (depth + 1) false
      (some st.nextId) ⟨st.nextId + 1, st.byId, max st.maxNestedDepth (depth + 1)⟩
      (le_refl _) hKBM
    rw [hI] at Min
    have f1 : st.nextId + 1 ≤ stR.nextId := Min.mono
    have hKB3 : KeysBounded ⟨stR.nextId,
        (st.nextId, mkRow st.nextId pid depth false paths n (Field.mk ty (some cs) none ex)
          (some kidIds)) :: stR.byId, stR.maxNestedDepth⟩ := by
      intro k r h
      dsimp only at h ⊢
      rw [lookupM_cons] at h
      split at h
      · omega
      · exact Min.bounded k r h
    rcases hR : normalizeFields rest paths depth false pid ⟨stR.nextId,
        (st.nextId, mkRow st.nextId pid depth false paths n (Field.mk ty (some cs) none ex)
          (some kidIds)) :: stR.byId, stR.maxNestedDepth⟩ with ⟨st4, restIds⟩
    simp only [hR] at hagree hfuel ⊢
    have Mrest := normalizeFields_master_aux (sizeOf rest) rest paths depth false pid
      ⟨stR.nextId,
       (st.nextId, mkRow st.nextId pid depth false paths n (Field.mk ty (some cs) none ex)
         (some kidIds)) :: stR.byId, stR.maxNestedDepth⟩ (le_refl _) hKB3
    rw [hR] at Mrest
    have f2 : stR.nextId ≤ st4.nextId := Mrest.mono
    have MrP := Mrest.pres
    dsimp only at MrP
    have hrowm : lookupM m st.nextId =
        some (mkRow st.nextId pid depth false paths n (Field.mk ty (some cs) none ex)
          (some kidIds)) := by
      rw [hagree st.nextId (le_refl _) (by omega)]
      rw [MrP st.nextId (by omega), lookupM_cons, if_pos rfl]
    have hmid : ∀ k, st.nextId + 1 ≤ k → k < stR.nextId →
        lookupM m k = lookupM stR.byId k := by
      intro k hk1 hk2
      rw [hagree k (by omega) (by omega)]
      rw [MrP k (by omega), lookupM_cons, if_neg (by omega)]
    obtain ⟨fuel1, rfl⟩ : ∃ f1, fuel = f1 + 1 := ⟨fuel - 1, by omega⟩
    have hsub := IHcs (paths ++ [n]) (depth + 1) (some st.nextId)
      ⟨st.nextId + 1, st.byId, max st.maxNestedDepth (depth + 1)⟩ hKBM m fuel1 []
      (by
        simp only [hI]
        exact fun k h1 h2 => hmid k h1 h2)
      (by
        simp only [hI]
        omega)
      (by simp)
    rw [hI] at hsub
    rw [deNormalizePaths_cons_kids m fuel1 st.nextId restIds acc _ kidIds .properties cs hrowm
      (by rw [mkRow_childFields]) (by rw [mkRow_childFieldsName]; simp [Field.type, hty])
      (by simpa using hsub)]
    simp only [mkRow_source]
    have hne2 : ∀ e ∈ acc, e.1 ≠ n := by
      intro e he hcontr
      exact hacc e he (by simp [hcontr])
    have hrebuild : setContainer
        (Field.mk (Field.mk ty (some cs) none ex).type none none
          (Field.mk ty (some cs) none ex).extra) ChildFieldName.properties cs =
        Field.mk ty (some cs) none ex := rfl
    rw [hrebuild, setKey_append acc n _ hne2]
    have happ := IHrest paths depth pid ⟨stR.nextId,
      (st.nextId, mkRow st.nextId pid depth false paths n (Field.mk ty (some cs) none ex)
        (some kidIds)) :: stR.byId, stR.maxNestedDepth⟩ hKB3 m (fuel1 + 1)
      (acc ++ [(n, Field.mk ty (some cs) none ex)])
      (by
        simp only [hR]
        exact fun k h1 h2 => hagree k (by omega) h2)
      (by
        simp only [hR]
        omega)
      (by
        intro e he
        rcases List.mem_append.mp he with h1 | h1
        · intro hh
          exact hacc e h1 (by simp only [List.map_cons]; exact List.mem_cons_of_mem _ hh)
        · simp at h1
          subst h1
          exact hdup)
    simp only [hR] at happ
    rw [happ]
    simp

/-- C1: round-trip law — denormalizing the table produced by normalizing a
well-formed nested field tree rebuilds exactly that tree (identifiers are
internal to the table and do not appear in the rebuilt tree). -/
theorem deNormalize_normalize (T : Fields) (h : WellFormed false T) :
    deNormalize (normalize T) = some T := by
  have D := denorm_of_wf false T h [] 0 none ⟨0, [], 0⟩ KB0
  rcases hN : normalizeFields T [] 0 false none ⟨0, [], 0⟩ with ⟨st2, roots⟩
  rw [hN] at D
  have Mo := normalize_master T
  rw [hN] at Mo
  have hlen : st2.byId.length = st2.nextId := by
    have := Mo.len
    simpa using this
  have hnorm : normalize T = ⟨st2.byId, roots, st2.maxNestedDepth⟩ := by
    unfold normalize
    rw [hN]
  have happ := D st2.byId (st2.byId.length + 1) [] (fun k h1 h2 => rfl)
    (by dsimp only; omega) (by simp)
  rw [hnorm]
  unfold deNormalize
  dsimp only
  rw [happ]
  simp

/-- Witness for C1 at the docstring example of `normalize`. -/
theorem deNormalize_normalize_witness :
    WellFormed false exWf ∧ deNormalize (normalize exWf) = some exWf := by
  have hwf : WellFormed false exWf := by
    apply WellFormed.consChildCont "myObject" "object" [] []
      [("name", Field.mk "text" none none [])]
    · rfl
    · simp
    · simp
    · apply WellFormed.consPlain
      · simp
      · exact WellFormed.nil false
    · exact WellFormed.nil false
  exact ⟨hwf, deNormalize_normalize exWf hwf⟩

end MappingsLib
